import Mathlib

/-!
Verification development for the `statikana/math` symbolic polynomial engine
(`src/structures.py`).  The Python classes `Monomial` and `Polynomial` are
shallowly embedded: a Python `dict[str, int]` of variable powers becomes an
insertion-ordered association list `List (String × ℤ)`, numeric coefficients
become `ℚ` (exact rational arithmetic in place of Python int/float), and
operations that can raise become `Except PyErr`.  Stateful loops are embedded
by explicit state passing; the one loop that can run forever
(`Polynomial.__sub__`) and the `shell` loop take explicit fuel.
-/

set_option linter.unusedVariables false

namespace PolyAlg

/-- Python exception kinds raised by the code paths embedded here. -/
inductive PyErr where
  | valueError
  | notDivisible
  | zeroDivision
  | indexError
  | keyError
  | typeError
deriving DecidableEq

/-- Insertion-ordered embedding of a Python `dict[str, int]` of variable powers. -/
abbrev VarDict := List (String × ℤ)

/-- Python `d[k]` / `d.get(k)`: value of the first entry with key `k`. -/
def dictLookup (d : VarDict) (k : String) : Option ℤ :=
  match d with
  | [] => none
  | (k', v) :: rest => if k' = k then some v else dictLookup rest k

/-- Python `d.get(k, 0)`. -/
def dictLookupD (d : VarDict) (k : String) : ℤ :=
  (dictLookup d k).getD 0

/-- Python `dict ==` on power mappings: same keys with the same values,
insertion order ignored. -/
def dictBeq (a b : VarDict) : Bool :=
  a.all (fun p => dictLookup b p.1 == some p.2) &&
  b.all (fun p => dictLookup a p.1 == some p.2)

/-- Entries whose exponent is zero, removed by `Monomial.clean`
(src/structures.py:26-32); deletion preserves the order of the rest. -/
def dictEraseZeros (d : VarDict) : VarDict :=
  d.filter (fun p => p.2 != 0)

/-- Python `del d[k]` (used by `Monomial.__call__`). -/
def dictErase (d : VarDict) (k : String) : VarDict :=
  d.filter (fun p => p.1 != k)

/-- The key sequence produced by a Python dict comprehension over a list of
candidate keys: first occurrence kept, later duplicates dropped. -/
def dedupKeys : List String → List String
  | [] => []
  | n :: rest => n :: dedupKeys (rest.filter (fun m => m != n))
termination_by l => l.length
decreasing_by
  simp only [List.length_cons]
  exact Nat.lt_succ_of_le (List.length_filter_le _ rest)

/-- Python `d.setdefault(k, 0); d[k] += n` as used by `Monomial.read`:
update the entry in place if the key is present, else append it. -/
def dictAdd (d : VarDict) (k : String) (n : ℤ) : VarDict :=
  match d with
  | [] => [(k, n)]
  | (k', v) :: rest => if k' = k then (k', v + n) :: rest else (k', v) :: dictAdd rest k n

/-- Embedding of the Python class `Monomial` (src/structures.py:17-206):
a coefficient (field name keeps the source's spelling) and a dict of
variable powers. -/
structure Monomial where
  coeffient : ℚ
  powers : VarDict
deriving DecidableEq

/-- Value-level form of `Monomial.clean` (src/structures.py:26-32): delete
all zero-exponent entries.  In Python this mutates `self`; callers below
thread the cleaned value wherever the source relies on that mutation. -/
def Monomial.clean (m : Monomial) : Monomial :=
  ⟨m.coeffient, dictEraseZeros m.powers⟩

/-- `Monomial.is_constant` (src/structures.py:99-102): after cleaning,
no variables remain.  (The Python property also mutates `self` via `clean`;
the cleaning is threaded explicitly at the call sites that need it.) -/
def Monomial.isConstant (m : Monomial) : Bool :=
  dictEraseZeros m.powers == []

/-- `Monomial.__mul__` (src/structures.py:160-167): coefficients multiply,
exponents add over the union of the two key sequences. -/
def Monomial.mul (self other : Monomial) : Monomial :=
  let varNames := self.powers.map (·.1) ++ other.powers.map (·.1)
  ⟨self.coeffient * other.coeffient,
   (dedupKeys varNames).map
     (fun n => (n, dictLookupD self.powers n + dictLookupD other.powers n))⟩

/-- `Monomial.__div__` (src/structures.py:169-179): exponents subtract over
the union of key sequences; the coefficient ratio must be an integer
(`ratio.is_integer()`), else `ValueError("Coefficients not divisible")`.
A zero divisor coefficient raises Python's `ZeroDivisionError` at the
division `self.coeffient / other.coeffient`. -/
def Monomial.div (self other : Monomial) : Except PyErr Monomial :=
  if other.coeffient = 0 then .error .zeroDivision
  else if (self.coeffient / other.coeffient).den = 1 then
    .ok ⟨self.coeffient / other.coeffient,
      (dedupKeys (self.powers.map (·.1) ++ other.powers.map (·.1))).map
        (fun n => (n, dictLookupD self.powers n - dictLookupD other.powers n))⟩
  else .error .notDivisible

/-- Maximum power of a monomial's dict, `0` for an empty dict: the sort key
used by `Polynomial.__init__` (src/structures.py:316-323). -/
def sortKey (m : Monomial) : ℤ :=
  match m.powers.map (·.2) with
  | [] => 0
  | v :: vs => vs.foldl max v

/-- Python `sorted(elements, key=max-power, reverse=True)`: a stable
descending sort on `sortKey`. -/
def sortElems (l : List Monomial) : List Monomial :=
  l.mergeSort (fun a b => decide (sortKey b ≤ sortKey a))

/-- Embedding of the Python class `Polynomial` (src/structures.py:212-384). -/
structure Polynomial where
  elements : List Monomial
deriving DecidableEq

/-- `Polynomial.__init__` (src/structures.py:316-323): the constructor only
sorts the given terms by maximum power, descending; it neither combines
like terms nor removes zero-coefficient terms. -/
def mkP (elements : List Monomial) : Polynomial :=
  ⟨sortElems elements⟩

/-- Number of distinct variable names over all terms:
`Polynomial.n_variables` (src/structures.py:293-301). -/
def Polynomial.nVariables (p : Polynomial) : ℕ :=
  ((p.elements.flatMap (fun m => m.powers.map (·.1))).dedup).length

/-- Denotation of a polynomial at a variable assignment (the spec's notion of
"evaluates to", used to state the distributivity claim). -/
def polyEval (env : String → ℚ) (p : Polynomial) : ℚ :=
  (p.elements.map
    (fun m => m.coeffient * (m.powers.map (fun pr => env pr.1 ^ pr.2)).prod)).sum

/-- The inner loop body of `Polynomial.__mul__` (src/structures.py:366-373)
computes, for a term `se` of the left copy, the product of `se` with every
term of `other` in turn. -/
def polyMulInnerLoop (se : Monomial) (other : Polynomial) : Monomial :=
  other.elements.foldl Monomial.mul se

/-- `Polynomial.__mul__` (src/structures.py:366-373).  The loop statement
`se *= oe` only rebinds the Python loop variable `se` (`Monomial` defines no
in-place product, so `se *= oe` is `se = se.__mul__(oe)`): the products of
`polyMulInnerLoop` are discarded and `copy.elements` — the deep copy of the
left operand — is returned unchanged. -/
def Polynomial.mul (self other : Polynomial) : Polynomial :=
  ⟨self.elements⟩

/-- One search of the inner loop of `Polynomial.__sub__`
(src/structures.py:353-364): find the first term of `other` whose powers
dict equals `oe.powers` and subtract `oe.coeffient` from it in place
(`se.coeffient -= oe.coeffient` mutates the right operand). -/
def subFindUpdate (other : List Monomial) (oe : Monomial) : Option (List Monomial) :=
  match other with
  | [] => none
  | se :: rest =>
      if dictBeq se.powers oe.powers then
        some (⟨se.coeffient - oe.coeffient, se.powers⟩ :: rest)
      else
        (subFindUpdate rest oe).map (se :: ·)

/-- The loop of `Polynomial.__sub__` (src/structures.py:353-364), with the
iteration state made explicit.  `processed ++ pending` is the current
`copy.elements` (the deep copy of the left operand) with `pending` the part
the `for` loop has not yet visited, and `other` the current state of the
right operand's term list.  When no matching term is found in `other`, the
negated term is appended to `copy.elements` — the very list being iterated —
so the loop revisits it; with a term whose powers never match this loop runs
forever, hence the fuel. -/
def polySubLoop : ℕ → List Monomial → List Monomial → List Monomial →
    Option (List Monomial × List Monomial)
  | 0, _, _, _ => none
  | _ + 1, processed, [], other => some (processed, other)
  | fuel + 1, processed, oe :: rest, other =>
      match subFindUpdate other oe with
      | some other' => polySubLoop fuel (processed ++ [oe]) rest other'
      | none =>
          polySubLoop fuel (processed ++ [oe])
            (rest ++ [⟨-oe.coeffient, oe.powers⟩]) other

/-- `Polynomial.__sub__` (src/structures.py:353-364), state-passing form:
returns the Python return value (the mutated deep copy of the left operand)
together with the final state of the right operand, whose terms the loop
mutates in place; `none` when the loop has not finished within `fuel`
iterations. -/
def Polynomial.sub (fuel : ℕ) (self other : Polynomial) :
    Option (Polynomial × Polynomial) :=
  (polySubLoop fuel [] self.elements other.elements).map
    (fun r => (⟨r.1⟩, ⟨r.2⟩))

/-- Membership in the deduplicated key sequence is membership in the
original sequence. -/
theorem mem_dedupKeys (l : List String) (v : String) : v ∈ dedupKeys l ↔ v ∈ l := by
  induction l using dedupKeys.induct with
  | case1 => simp [dedupKeys]
  | case2 n rest ih =>
      rw [dedupKeys]
      simp only [List.mem_cons, ih, List.mem_filter]
      constructor
      · rintro (rfl | ⟨h, _⟩) <;> simp [*]
      · rintro (rfl | h)
        · left; rfl
        · by_cases hv : v = n
          · left; exact hv
          · right; simp [h, hv, bne_iff_ne]

/-- Looking a key up in a list of entries generated pointwise from a key
sequence yields the generating function's value exactly on the sequence's
members. -/
theorem dictLookup_map_keys (names : List String) (f : String → ℤ) (v : String) :
    dictLookup (names.map (fun n => (n, f n))) v =
      if v ∈ names then some (f v) else none := by
  induction names with
  | nil => rfl
  | cons n rest ih =>
      simp only [List.map_cons, dictLookup, List.mem_cons]
      by_cases h : n = v
      · subst h; simp
      · simp only [if_neg h, ih]
        by_cases hv : v ∈ rest <;> simp [hv, Ne.symm h]

/-- Keys absent from a dict look up to `none`. -/
theorem dictLookup_eq_none (d : VarDict) (v : String) (h : v ∉ d.map (·.1)) :
    dictLookup d v = none := by
  induction d with
  | nil => rfl
  | cons p rest ih =>
      simp only [List.map_cons, List.mem_cons] at h
      push_neg at h
      obtain ⟨p1, p2⟩ := p
      simp only [dictLookup]
      rw [if_neg (Ne.symm h.1), ih h.2]

/-- The entry map produced by the dict comprehensions of `Monomial.__mul__`
and `Monomial.__div__`, looked up with default 0: the generating function's
value on members of the key sequence, and the default elsewhere.  The claims
about exponent sums and differences reduce to this. -/
theorem dictLookupD_comprehension (names : List String) (f : String → ℤ)
    (hf : ∀ v, v ∉ names → f v = 0) (v : String) :
    dictLookupD ((dedupKeys names).map (fun n => (n, f n))) v = f v := by
  unfold dictLookupD
  rw [dictLookup_map_keys]
  by_cases h : v ∈ dedupKeys names
  · simp [h]
  · rw [if_neg h]
    rw [mem_dedupKeys] at h
    simp [hf v h]

/-- C1: the claim states that `Expression * Expression` is the full
distributed polynomial product, so that the product evaluates to the product
of the values.  The code disagrees: `se *= oe` in `Polynomial.__mul__` only
rebinds the loop variable, so `x * x` returns the left operand `x` unchanged,
which evaluates to `2` at `x = 2` while the claimed product would evaluate to
`4`. -/
theorem c1_mul_returns_left_operand_unchanged :
    Polynomial.mul ⟨[⟨1, [("x", 1)]⟩]⟩ ⟨[⟨1, [("x", 1)]⟩]⟩ = ⟨[⟨1, [("x", 1)]⟩]⟩ ∧
    polyEval (fun _ => 2) (Polynomial.mul ⟨[⟨1, [("x", 1)]⟩]⟩ ⟨[⟨1, [("x", 1)]⟩]⟩) = 2 ∧
    polyEval (fun _ => 2) ⟨[⟨1, [("x", 1)]⟩]⟩ * polyEval (fun _ => 2) ⟨[⟨1, [("x", 1)]⟩]⟩ = 4 := by
  refine ⟨rfl, ?_, ?_⟩ <;> norm_num [polyEval, Polynomial.mul]

/-- C2: the claim states that all operators are pure and never observably
change an operand.  The code disagrees: evaluating `x - x` via
`Polynomial.__sub__` returns the deep copy of the left operand unchanged
while zeroing the coefficient of the right operand's term in place
(`se.coeffient -= oe.coeffient` with `se` drawn from `other.elements`):
the right operand ends as `0·x¹`, observably different from its initial
value `1·x¹`. -/
theorem c2_sub_mutates_right_operand :
    Polynomial.sub 10 ⟨[⟨1, [("x", 1)]⟩]⟩ ⟨[⟨1, [("x", 1)]⟩]⟩ =
      some (⟨[⟨1, [("x", 1)]⟩]⟩, ⟨[⟨0, [("x", 1)]⟩]⟩) ∧
    (⟨0, [("x", 1)]⟩ : Monomial) ≠ ⟨1, [("x", 1)]⟩ := by
  norm_num [Polynomial.sub, polySubLoop, subFindUpdate, dictBeq, dictLookup,
    Monomial.mk.injEq, Polynomial.mk.injEq]

/-- C3: the claim states that an Expression built from a list of Terms is
canonical (like terms combined, zero coefficients removed, sorted).  The code
disagrees: `Polynomial.__init__` only sorts, so constructing from
`[1·x¹, 1·x¹, 0]` keeps two terms with equal powers dicts and keeps the
zero-coefficient term. -/
theorem c3_init_keeps_duplicates_and_zero_terms :
    (mkP [⟨1, [("x", 1)]⟩, ⟨1, [("x", 1)]⟩, ⟨0, []⟩]).elements =
      [⟨1, [("x", 1)]⟩, ⟨1, [("x", 1)]⟩, ⟨0, []⟩] ∧
    dictBeq (⟨1, [("x", 1)]⟩ : Monomial).powers (⟨1, [("x", 1)]⟩ : Monomial).powers = true ∧
    (⟨0, []⟩ : Monomial).coeffient = 0 := by
  refine ⟨?_, by decide, rfl⟩
  show sortElems _ = _
  exact List.mergeSort_of_sorted (by decide)

/-- C4: the claim states `A - A` is the zero polynomial (empty term
sequence).  The code disagrees: for `A = x² + 1`, `Polynomial.__sub__`
returns the deep copy of `A` unchanged (its loop subtracts the coefficients
into the right operand instead), so `A - A = A ≠ 0`. -/
theorem c4_sub_self_returns_self_not_zero :
    (Polynomial.sub 10 ⟨[⟨1, [("x", 2)]⟩, ⟨1, []⟩]⟩ ⟨[⟨1, [("x", 2)]⟩, ⟨1, []⟩]⟩).map
        Prod.fst = some ⟨[⟨1, [("x", 2)]⟩, ⟨1, []⟩]⟩ ∧
    (⟨[⟨1, [("x", 2)]⟩, ⟨1, []⟩]⟩ : Polynomial) ≠ ⟨[]⟩ := by
  refine ⟨?_, by simp [Polynomial.mk.injEq]⟩
  norm_num [Polynomial.sub, polySubLoop, subFindUpdate, dictBeq, dictLookup,
    Monomial.mk.injEq, Polynomial.mk.injEq]

/-- `Monomial.derivative` (src/structures.py:111-126).  With order `0` the
receiver is returned as is; otherwise the receiver is cleaned, a cleaned
constant differentiates to `M(0)`, more than one remaining variable raises
`ValueError`, and a single variable `(v, e)` recurses on
`M(coeffient * e, v ↦ e - 1)` with order lowered by one. -/
def Monomial.derivative (t : Monomial) : ℕ → Except PyErr Monomial
  | 0 => .ok t
  | n + 1 =>
      match (t.clean).powers with
      | [] => .ok ⟨0, []⟩
      | [(v, e)] => Monomial.derivative ⟨t.coeffient * e, [(v, e - 1)]⟩ n
      | _ => .error .valueError

/-- C5 counterexample: the claim states the derivative of a Term in which
the variable has exponent 1 removes the variable entirely from the powers
mapping.  The code returns `3·x⁰` for the derivative of `3x`: the final
recursive call has order 0 and returns its receiver without cleaning, so the
entry `("x", 0)` remains in the mapping. -/
theorem c5_counterexample_zero_exponent_kept :
    Monomial.derivative ⟨3, [("x", 1)]⟩ 1 = .ok ⟨3 * 1, [("x", 1 - 1)]⟩ ∧
    ([("x", (1:ℤ) - 1)] : VarDict) ≠ [] := by
  constructor
  · simp [Monomial.derivative, Monomial.clean, dictEraseZeros]
  · simp

/-- C5 (amended): a cleaned-constant Term differentiates to the Term `M(0)`,
and a Term whose cleaned powers mapping is exactly `(v, e)` has first
derivative with coefficient multiplied by `e` and that variable's exponent
`e - 1` — but the entry stays in the mapping (with exponent 0 when `e = 1`);
it is not removed at the Term level (only a later `clean`, e.g. inside
`Polynomial.derivative`, removes it). -/
theorem c5_derivative_amended (t : Monomial) :
    ((t.clean).powers = [] → Monomial.derivative t 1 = .ok ⟨0, []⟩) ∧
    (∀ v e, (t.clean).powers = [(v, e)] →
      Monomial.derivative t 1 = .ok ⟨t.coeffient * e, [(v, e - 1)]⟩) := by
  constructor
  · intro h
    simp [Monomial.derivative, h]
  · intro v e h
    simp [Monomial.derivative, h]

/-- Witness for C5 (amended) at the concrete Term `2·y³`. -/
theorem c5_derivative_amended_witness :
    ((⟨2, [("y", 3)]⟩ : Monomial).clean).powers = [("y", 3)] ∧
    Monomial.derivative ⟨2, [("y", 3)]⟩ 1 = .ok ⟨2 * 3, [("y", 3 - 1)]⟩ :=
  ⟨by decide, (c5_derivative_amended ⟨2, [("y", 3)]⟩).2 "y" 3 (by decide)⟩

/-- C6: `Monomial.__div__` fails with the not-divisible error exactly when
the coefficient ratio is not an integer, and on success the result's
coefficient is the ratio and every variable's exponent is the difference of
the operands' exponents (a variable absent from a mapping counting as
exponent 0, negative differences allowed).  Stated for divisors with nonzero
coefficient: a zero divisor coefficient raises `ZeroDivisionError` at the
ratio computation, before divisibility is examined. -/
theorem c6_div_characterization (t1 t2 : Monomial) (h : t2.coeffient ≠ 0) :
    (Monomial.div t1 t2 = .error .notDivisible ↔
      ¬ ∃ z : ℤ, t1.coeffient / t2.coeffient = (z : ℚ)) ∧
    (∀ r, Monomial.div t1 t2 = .ok r →
      r.coeffient = t1.coeffient / t2.coeffient ∧
      ∀ v, dictLookupD r.powers v =
        dictLookupD t1.powers v - dictLookupD t2.powers v) := by
  unfold Monomial.div
  rw [if_neg h]
  have hf : ∀ w, w ∉ (t1.powers.map (·.1) ++ t2.powers.map (·.1)) →
      dictLookupD t1.powers w - dictLookupD t2.powers w = 0 := by
    intro w hw
    simp only [List.mem_append] at hw
    push_neg at hw
    simp [dictLookupD, dictLookup_eq_none _ _ hw.1, dictLookup_eq_none _ _ hw.2]
  by_cases hden : (t1.coeffient / t2.coeffient).den = 1
  · rw [if_pos hden]
    constructor
    · exact iff_of_false (by simp) (not_not_intro
        ⟨(t1.coeffient / t2.coeffient).num, ((Rat.den_eq_one_iff _).mp hden).symm⟩)
    · intro r hr
      injection hr with hr
      subst hr
      exact ⟨rfl, fun v => dictLookupD_comprehension _ _ hf v⟩
  · rw [if_neg hden]
    constructor
    · refine iff_of_true rfl ?_
      rintro ⟨z, hz⟩
      rw [hz] at hden
      exact hden (Rat.den_intCast z)
    · intro r hr
      exact absurd hr (by simp)

/-- Witness for C6 at `6x³y / 2x⁵`: ratio 3, exponents subtract to
`x⁻², y¹`. -/
theorem c6_div_characterization_witness :
    ((2:ℚ) ≠ 0) ∧
    (Monomial.div ⟨6, [("x", 3), ("y", 1)]⟩ ⟨2, [("x", 5)]⟩ = .error .notDivisible ↔
      ¬ ∃ z : ℤ, (6:ℚ) / 2 = (z : ℚ)) ∧
    (∀ r, Monomial.div ⟨6, [("x", 3), ("y", 1)]⟩ ⟨2, [("x", 5)]⟩ = .ok r →
      r.coeffient = (6:ℚ) / 2 ∧
      ∀ v, dictLookupD r.powers v =
        dictLookupD [("x", 3), ("y", 1)] v - dictLookupD [("x", 5)] v) :=
  ⟨by norm_num, c6_div_characterization ⟨6, [("x", 3), ("y", 1)]⟩ ⟨2, [("x", 5)]⟩ (by norm_num)⟩

/-- Characters of the variables part of a `Monomial.read` input
(src/structures.py:59-93), the part of the lowercased text after the
coefficient prefix matched by the regular expression.  `digit` covers both
an ASCII digit and a unicode superscript digit, which the loop treats
identically (`current_num = (current_num or 0) * 10 + digit`); `caret`
(the `^` character) is skipped by the loop. -/
inductive RChar where
  | letter (name : String)
  | caret
  | digit (d : Fin 10)
deriving DecidableEq

/-- State of the character loop of `Monomial.read`: the accumulated
`variables` dict and the pending `current_var` / `current_num`. -/
structure ReadState where
  vars : VarDict
  currentVar : Option String
  currentNum : Option ℤ
deriving DecidableEq

/-- One iteration of the character loop of `Monomial.read`
(src/structures.py:62-87): a letter flushes the pending variable
(`variables.setdefault(cv, 0); variables[cv] += current_num if current_num
is not None else 1`) and starts a new one with no pending exponent; `^`
does nothing; a digit extends `current_num` in base 10. -/
def readStep (st : ReadState) (c : RChar) : ReadState :=
  match c with
  | .letter name =>
      match st.currentVar with
      | none => ⟨st.vars, some name, none⟩
      | some cv => ⟨dictAdd st.vars cv (st.currentNum.getD 1), some name, none⟩
  | .caret => st
  | .digit d => ⟨st.vars, st.currentVar, some ((st.currentNum.getD 0) * 10 + (d : ℤ))⟩

/-- The flush after the loop (src/structures.py:88-90): if a variable is
still pending it is added with its pending exponent (default 1). -/
def readFlush (st : ReadState) : VarDict :=
  match st.currentVar with
  | none => st.vars
  | some cv => dictAdd st.vars cv (st.currentNum.getD 1)

/-- The variables dict produced by `Monomial.read` for a given character
sequence: run the character loop from the empty state, flush, and apply the
final `mono.clean()` (src/structures.py:91-93), which removes
zero-exponent entries. -/
def readVars (chars : List RChar) : VarDict :=
  dictEraseZeros (readFlush (chars.foldl readStep ⟨[], none, none⟩))

/-- A variable atom of the source text: a letter, optionally followed by a
caret and a nonempty run of exponent digits (the regular expression at
src/structures.py:38-40 requires at least one digit after `^`). -/
abbrev RAtom := String × Option (Fin 10 × List (Fin 10))

/-- The characters an atom contributes to the text. -/
def renderAtom (a : RAtom) : List RChar :=
  RChar.letter a.1 :: (match a.2 with
    | none => []
    | some (d, ds) => RChar.caret :: RChar.digit d :: ds.map RChar.digit)

/-- The character sequence of a whole variables part. -/
def renderAtoms (atoms : List RAtom) : List RChar :=
  atoms.flatMap renderAtom

/-- The exponent an atom writes: `1` when written bare, else the base-10
value of its digits. -/
def atomVal (a : RAtom) : ℤ :=
  match a.2 with
  | none => 1
  | some (d, ds) => ds.foldl (fun acc k => acc * 10 + (k : ℤ)) ((0:ℤ) * 10 + (d : ℤ))

/-- A letter always flushes the pending variable and starts a new one. -/
theorem readStep_letter (st : ReadState) (n : String) :
    readStep st (.letter n) = ⟨readFlush st, some n, none⟩ := by
  cases h : st.currentVar <;> simp [readStep, readFlush, h]

/-- Folding a run of digit characters accumulates their base-10 value onto
the pending number, touching nothing else. -/
theorem foldl_readStep_digits (ds : List (Fin 10)) :
    ∀ (vars : VarDict) (cv : Option String) (m : ℤ),
    (ds.map RChar.digit).foldl readStep ⟨vars, cv, some m⟩ =
      ⟨vars, cv, some (ds.foldl (fun acc k => acc * 10 + (k : ℤ)) m)⟩ := by
  induction ds with
  | nil => intro vars cv m; rfl
  | cons d ds ih =>
      intro vars cv m
      simp only [List.map_cons, List.foldl_cons, readStep, Option.getD_some]
      exact ih vars cv (m * 10 + (d : ℤ))

/-- Folding the characters of an atom sequence from any state: the flushed
dict accumulates `dictAdd name (atomVal)` per atom, in order. -/
theorem readFlush_foldl_atoms (atoms : List RAtom) :
    ∀ st : ReadState,
    readFlush ((renderAtoms atoms).foldl readStep st) =
      atoms.foldl (fun vs a => dictAdd vs a.1 (atomVal a)) (readFlush st) := by
  induction atoms with
  | nil => intro st; rfl
  | cons a rest ih =>
      intro st
      obtain ⟨name, exp⟩ := a
      simp only [renderAtoms, List.flatMap_cons, List.foldl_append, List.foldl_cons]
      rw [renderAtom]
      cases exp with
      | none =>
          simp only [List.foldl_cons, readStep_letter, List.foldl_nil]
          rw [renderAtoms] at ih
          rw [ih ⟨readFlush st, some name, none⟩]
          rfl
      | some de =>
          obtain ⟨d, ds⟩ := de
          simp only [List.foldl_cons, readStep_letter]
          have hcaret : readStep ⟨readFlush st, some name, none⟩ .caret =
              ⟨readFlush st, some name, none⟩ := rfl
          rw [hcaret]
          have hd : readStep ⟨readFlush st, some name, none⟩ (.digit d) =
              ⟨readFlush st, some name, some ((0:ℤ) * 10 + (d : ℤ))⟩ := rfl
          rw [hd, foldl_readStep_digits]
          rw [renderAtoms] at ih
          rw [ih ⟨readFlush st, some name, some _⟩]
          rfl

/-- Looking up after `dictAdd` adds the increment exactly at the added key. -/
theorem dictLookupD_dictAdd (d : VarDict) (k : String) (n : ℤ) (v : String) :
    dictLookupD (dictAdd d k n) v =
      dictLookupD d v + (if k = v then n else 0) := by
  induction d with
  | nil =>
      by_cases h : k = v <;> simp [dictAdd, dictLookupD, dictLookup, h]
  | cons p rest ih =>
      obtain ⟨k', x⟩ := p
      by_cases hk : k' = k
      · subst hk
        by_cases hv : k' = v <;>
          simp [dictAdd, dictLookupD, dictLookup, hv]
      · by_cases hv : k' = v
        · subst hv
          have hkv : k ≠ k' := fun e => hk e.symm
          simp [dictAdd, dictLookup, dictLookupD, if_neg hk, if_neg hkv]
        · simp only [dictAdd, if_neg hk, dictLookup, dictLookupD, if_neg hv]
          exact ih

/-- Accumulating all atoms into a dict and then looking up one variable
gives the sum of that variable's written exponents. -/
theorem dictLookupD_foldl_atoms (atoms : List RAtom) (v : String) :
    ∀ init : VarDict,
    dictLookupD (atoms.foldl (fun vs a => dictAdd vs a.1 (atomVal a)) init) v =
      dictLookupD init v + ((atoms.filter (fun a => a.1 == v)).map atomVal).sum := by
  induction atoms with
  | nil => intro init; simp
  | cons a rest ih =>
      intro init
      simp only [List.foldl_cons]
      rw [ih (dictAdd init a.1 (atomVal a)), dictLookupD_dictAdd]
      by_cases h : a.1 = v
      · simp only [List.filter_cons, h, beq_self_eq_true, if_pos, List.map_cons,
          List.sum_cons, if_pos rfl]
        ring
      · have hb : (a.1 == v) = false := beq_eq_false_iff_ne.mpr h
        simp only [List.filter_cons, hb, if_neg h, Bool.false_eq_true, if_false]
        ring

/-- The key sequence of `dictAdd`: unchanged when the key is present,
extended by the key otherwise. -/
theorem keys_dictAdd (d : VarDict) (k : String) (n : ℤ) :
    (dictAdd d k n).map (·.1) = d.map (·.1) ∨
    (dictAdd d k n).map (·.1) = d.map (·.1) ++ [k] := by
  induction d with
  | nil => right; rfl
  | cons p rest ih =>
      obtain ⟨k', x⟩ := p
      by_cases hk : k' = k
      · left; simp [dictAdd, hk]
      · rcases ih with h | h
        · left; simp [dictAdd, if_neg hk, h]
        · right; simp [dictAdd, if_neg hk, h]

/-- `dictAdd` preserves distinctness of keys. -/
theorem nodup_keys_dictAdd (d : VarDict) (k : String) (n : ℤ)
    (h : (d.map (·.1)).Nodup) : ((dictAdd d k n).map (·.1)).Nodup := by
  induction d with
  | nil => simp [dictAdd]
  | cons p rest ih =>
      obtain ⟨k', x⟩ := p
      simp only [List.map_cons, List.nodup_cons] at h
      by_cases hk : k' = k
      · simp only [dictAdd, if_pos hk, List.map_cons, List.nodup_cons]
        exact h
      · simp only [dictAdd, if_neg hk, List.map_cons, List.nodup_cons]
        refine ⟨?_, ih h.2⟩
        rcases keys_dictAdd rest k n with he | he <;> rw [he]
        · exact h.1
        · simp only [List.mem_append, List.mem_singleton]
          rintro (hm | rfl)
          · exact h.1 hm
          · exact hk rfl

/-- Keys surviving `dictEraseZeros` were keys before. -/
theorem keys_eraseZeros_subset (d : VarDict) (v : String)
    (h : v ∈ (dictEraseZeros d).map (·.1)) : v ∈ d.map (·.1) := by
  simp only [dictEraseZeros, List.mem_map] at h ⊢
  obtain ⟨p, hp, hpv⟩ := h
  exact ⟨p, List.mem_of_mem_filter hp, hpv⟩

/-- On a dict with distinct keys, removing zero entries does not change
lookups with default 0. -/
theorem dictLookupD_eraseZeros (d : VarDict) (v : String)
    (h : (d.map (·.1)).Nodup) :
    dictLookupD (dictEraseZeros d) v = dictLookupD d v := by
  induction d with
  | nil => rfl
  | cons p rest ih =>
      obtain ⟨k', x⟩ := p
      simp only [List.map_cons, List.nodup_cons] at h
      by_cases hv : k' = v
      · subst hv
        by_cases hx : x = 0
        · subst hx
          have hz : dictEraseZeros ((k', (0:ℤ)) :: rest) = dictEraseZeros rest := by
            simp [dictEraseZeros]
          rw [hz]
          have hnone : dictLookup (dictEraseZeros rest) k' = none := by
            apply dictLookup_eq_none
            intro hm
            exact h.1 (keys_eraseZeros_subset rest k' hm)
          simp [dictLookupD, hnone, dictLookup]
        · have hz : dictEraseZeros ((k', x) :: rest) = (k', x) :: dictEraseZeros rest := by
            simp [dictEraseZeros, hx]
          rw [hz]
          simp [dictLookupD, dictLookup]
      · by_cases hx : x = 0
        · subst hx
          have hz : dictEraseZeros ((k', (0:ℤ)) :: rest) = dictEraseZeros rest := by
            simp [dictEraseZeros]
          rw [hz, ih h.2]
          simp [dictLookupD, dictLookup, if_neg hv]
        · have hz : dictEraseZeros ((k', x) :: rest) = (k', x) :: dictEraseZeros rest := by
            simp [dictEraseZeros, hx]
          rw [hz]
          simp only [dictLookupD, dictLookup, if_neg hv]
          exact ih h.2

/-- Accumulating atoms from the empty dict keeps keys distinct. -/
theorem nodup_keys_foldl_atoms (atoms : List RAtom) :
    ∀ init : VarDict, (init.map (·.1)).Nodup →
    ((atoms.foldl (fun vs a => dictAdd vs a.1 (atomVal a)) init).map (·.1)).Nodup := by
  induction atoms with
  | nil => intro init h; exact h
  | cons a rest ih =>
      intro init h
      exact ih _ (nodup_keys_dictAdd init a.1 (atomVal a) h)

/-- C8: repeated occurrences of the same variable in one term text
accumulate: for every sequence of variable atoms in which `v` is written
more than once, the exponent of `v` in the Term produced by the character
loop of `Monomial.read` (including the final clean) is the sum of the
individually written exponents, a bare occurrence counting as exponent 1. -/
theorem c8_read_accumulates (atoms : List RAtom) (v : String)
    (hv : 2 ≤ (atoms.filter (fun a => a.1 == v)).length) :
    dictLookupD (readVars (renderAtoms atoms)) v =
      ((atoms.filter (fun a => a.1 == v)).map atomVal).sum := by
  unfold readVars
  rw [dictLookupD_eraseZeros _ _ ?nodup]
  case nodup =>
    rw [readFlush_foldl_atoms atoms ⟨[], none, none⟩]
    exact nodup_keys_foldl_atoms atoms _ (by simp [readFlush])
  rw [readFlush_foldl_atoms atoms ⟨[], none, none⟩,
    dictLookupD_foldl_atoms atoms v (readFlush ⟨[], none, none⟩)]
  simp [readFlush, dictLookupD, dictLookup]

/-- Witness for C8 on the text `x^2x` (atoms `x^2` and bare `x`): the
resulting exponent of `x` is `2 + 1`. -/
theorem c8_read_accumulates_witness :
    2 ≤ (([("x", some (2, [])), ("x", none)] : List RAtom).filter
        (fun a => a.1 == "x")).length ∧
    dictLookupD (readVars (renderAtoms [("x", some (2, [])), ("x", none)])) "x" =
      ((([("x", some (2, [])), ("x", none)] : List RAtom).filter
        (fun a => a.1 == "x")).map atomVal).sum :=
  ⟨by decide, c8_read_accumulates [("x", some (2, [])), ("x", none)] "x" (by decide)⟩

/-- The loop of `Monomial.__call__` (src/structures.py:132-139) for the
binding produced by a positional `Polynomial.__call__`: `values` is the
singleton dict `{v: value}`, so `var in values` is `var = v`.  The loop
iterates the snapshot `variable_list` of keys; a bound variable multiplies
the coefficient by `value ** exponent` and deletes the key; as in Python,
`0 ** negative` raises `ZeroDivisionError`. -/
def callLoop (value : ℚ) (v : String) : List String → Monomial → Except PyErr Monomial
  | [], acc => .ok acc
  | var :: rest, acc =>
      if var = v then
        if value = 0 ∧ dictLookupD acc.powers var < 0 then .error .zeroDivision
        else
          callLoop value v rest
            ⟨acc.coeffient * value ^ dictLookupD acc.powers var, dictErase acc.powers var⟩
      else callLoop value v rest acc

/-- `Monomial.__call__` (src/structures.py:132-139) with the single binding
`{v: value}`. -/
def Monomial.call (m : Monomial) (value : ℚ) (v : String) : Except PyErr Monomial :=
  callLoop value v (m.powers.map (·.1)) m

/-- `Polynomial.combine_like_terms` (src/structures.py:283-291): each term
in order is cleaned, then all later terms with dict-equal powers are
absorbed into its coefficient and deleted.  Comparison uses the current
state of the later terms, which have not been cleaned yet. -/
def combineLike (l : List Monomial) : List Monomial :=
  match l with
  | [] => []
  | m :: rest =>
      ⟨(m.clean).coeffient +
          ((rest.filter (fun o => dictBeq o.powers (m.clean).powers)).map (·.coeffient)).sum,
        (m.clean).powers⟩ ::
      combineLike (rest.filter (fun o => !(dictBeq o.powers (m.clean).powers)))
termination_by l.length
decreasing_by
  simp only [List.length_cons]
  exact Nat.lt_succ_of_le (List.length_filter_le _ rest)

/-- `Polynomial.clean` (src/structures.py:278-281).  The
`map(Monomial.clean, self.elements)` on its first line builds a lazy
iterator that is never consumed, so it has no effect; the elements are then
re-sorted through the constructor and like terms combined. -/
def Polynomial.clean (p : Polynomial) : Polynomial :=
  ⟨combineLike (sortElems p.elements)⟩

/-- The substitution loop of `Polynomial.__call__` (src/structures.py:222-223):
each element is replaced by its call; a raised exception propagates. -/
def mapExcept (f : Monomial → Except PyErr Monomial) :
    List Monomial → Except PyErr (List Monomial)
  | [] => .ok []
  | m :: rest => do
      let m' ← f m
      let rest' ← mapExcept f rest
      .ok (m' :: rest')

/-- `Polynomial.__call__` with a positional numeric value
(src/structures.py:213-226): `ValueError` when the polynomial has more than
one distinct variable; otherwise the substitution variable is
`self.elements[0].variable_list[0]` — an `IndexError` for an empty
Expression or when the leading term's powers dict is empty — then every
term is substituted and the cleaned result returned (a Polynomial, never a
plain number). -/
def Polynomial.call (p : Polynomial) (value : ℚ) : Except PyErr Polynomial :=
  if 1 < p.nVariables then .error .valueError
  else
    match p.elements with
    | [] => .error .indexError
    | e0 :: _ =>
        match e0.powers.map (·.1) with
        | [] => .error .indexError
        | v :: _ =>
            match mapExcept (fun m => m.call value v) p.elements with
            | .error e => .error e
            | .ok els => .ok (Polynomial.clean ⟨els⟩)

/-- Skipping unbound variables leaves the accumulator unchanged. -/
theorem callLoop_not_mem (value : ℚ) (v : String) (K : List String)
    (h : v ∉ K) : ∀ acc, callLoop value v K acc = .ok acc := by
  induction K with
  | nil => intro acc; rfl
  | cons k rest ih =>
      intro acc
      simp only [List.mem_cons] at h
      push_neg at h
      rw [callLoop, if_neg (fun e => h.1 e.symm)]
      exact ih h.2 acc

/-- A prefix without the bound variable can be skipped. -/
theorem callLoop_skip (value : ℚ) (v : String) (s K : List String)
    (h : v ∉ s) : ∀ acc, callLoop value v (s ++ K) acc = callLoop value v K acc := by
  induction s with
  | nil => intro acc; rfl
  | cons k rest ih =>
      intro acc
      simp only [List.mem_cons] at h
      push_neg at h
      rw [List.cons_append, callLoop, if_neg (fun e => h.1 e.symm)]
      exact ih h.2 acc

/-- Erasing an absent key does nothing. -/
theorem dictErase_not_mem (d : VarDict) (v : String) (h : v ∉ d.map (·.1)) :
    dictErase d v = d := by
  apply List.filter_eq_self.mpr
  intro p hp
  simp only [bne_iff_ne, ne_eq]
  intro e
  exact h (List.mem_map.mpr ⟨p, hp, e⟩)

/-- `Monomial.__call__` with one binding raises exactly when the value is 0
and the bound variable's exponent is negative (for distinct keys). -/
theorem monomial_call_error_iff (m : Monomial) (value : ℚ) (v : String)
    (hnd : (m.powers.map (·.1)).Nodup) :
    (∃ er, m.call value v = .error er) ↔
      value = 0 ∧ dictLookupD m.powers v < 0 := by
  unfold Monomial.call
  by_cases hv : v ∈ m.powers.map (·.1)
  · obtain ⟨s, t, hst⟩ := List.append_of_mem hv
    rw [hst] at hnd ⊢
    rw [List.nodup_append] at hnd
    have hvs : v ∉ s := fun hm => hnd.2.2 hm (List.mem_cons_self v t)
    have hvt : v ∉ t := (List.nodup_cons.mp hnd.2.1).1
    rw [callLoop_skip value v s _ hvs, callLoop, if_pos rfl]
    by_cases hc : value = 0 ∧ dictLookupD m.powers v < 0
    · rw [if_pos hc]
      exact iff_of_true ⟨.zeroDivision, rfl⟩ hc
    · rw [if_neg hc, callLoop_not_mem value v t hvt]
      refine iff_of_false ?_ hc
      rintro ⟨er, her⟩
      cases her
  · rw [callLoop_not_mem value v _ hv]
    refine iff_of_false ?_ ?_
    · rintro ⟨er, her⟩
      cases her
    · rintro ⟨-, hneg⟩
      rw [dictLookupD, dictLookup_eq_none _ _ hv] at hneg
      exact absurd hneg (by norm_num)

/-- On success, `Monomial.__call__` with one binding deletes exactly the
bound variable's entry (for distinct keys). -/
theorem monomial_call_ok_powers (m : Monomial) (value : ℚ) (v : String)
    (hnd : (m.powers.map (·.1)).Nodup) (m' : Monomial)
    (h : m.call value v = .ok m') : m'.powers = dictErase m.powers v := by
  unfold Monomial.call at h
  by_cases hv : v ∈ m.powers.map (·.1)
  · obtain ⟨s, t, hst⟩ := List.append_of_mem hv
    rw [hst] at hnd h
    rw [List.nodup_append] at hnd
    have hvs : v ∉ s := fun hm => hnd.2.2 hm (List.mem_cons_self v t)
    have hvt : v ∉ t := (List.nodup_cons.mp hnd.2.1).1
    rw [callLoop_skip value v s _ hvs, callLoop, if_pos rfl] at h
    by_cases hc : value = 0 ∧ dictLookupD m.powers v < 0
    · rw [if_pos hc] at h
      cases h
    · rw [if_neg hc, callLoop_not_mem value v t hvt] at h
      injection h with h
      subst h
      rfl
  · rw [callLoop_not_mem value v _ hv] at h
    injection h with h
    subst h
    exact (dictErase_not_mem _ _ hv).symm

/-- `mapExcept` raises exactly when some element's call raises. -/
theorem mapExcept_error_iff (f : Monomial → Except PyErr Monomial)
    (l : List Monomial) :
    (∃ e, mapExcept f l = .error e) ↔ ∃ m ∈ l, ∃ e, f m = .error e := by
  induction l with
  | nil =>
      refine iff_of_false ?_ (by simp)
      rintro ⟨e, he⟩
      cases he
  | cons m rest ih =>
      constructor
      · rintro ⟨e, he⟩
        rw [mapExcept] at he
        cases hf : f m with
        | error e' => exact ⟨m, List.mem_cons_self m rest, e', hf⟩
        | ok m' =>
            rw [hf] at he
            simp only [Bind.bind, Except.bind] at he
            cases hr : mapExcept f rest with
            | error e' =>
                obtain ⟨x, hx, hfe⟩ := ih.mp ⟨e', hr⟩
                exact ⟨x, List.mem_cons_of_mem m hx, hfe⟩
            | ok rest' =>
                rw [hr] at he
                simp at he
      · rintro ⟨x, hx, e, hfe⟩
        rw [mapExcept]
        rcases List.mem_cons.mp hx with rfl | hx2
        · rw [hfe]
          exact ⟨e, rfl⟩
        · cases hf : f m with
          | error e' => exact ⟨e', rfl⟩
          | ok m' =>
              obtain ⟨e'', he''⟩ := ih.mpr ⟨x, hx2, e, hfe⟩
              rw [he'']
              exact ⟨e'', rfl⟩

/-- Every element of a successful `mapExcept` result comes from a
successful call on some input element. -/
theorem mapExcept_ok_mem (f : Monomial → Except PyErr Monomial)
    (l : List Monomial) (l' : List Monomial) (h : mapExcept f l = .ok l') :
    ∀ y ∈ l', ∃ m ∈ l, f m = .ok y := by
  induction l generalizing l' with
  | nil =>
      injection h with h
      subst h
      intro y hy
      cases hy
  | cons m rest ih =>
      rw [mapExcept] at h
      cases hf : f m with
      | error e => rw [hf] at h; cases h
      | ok m' =>
          rw [hf] at h
          simp only [Bind.bind, Except.bind] at h
          cases hr : mapExcept f rest with
          | error e => rw [hr] at h; cases h
          | ok rest' =>
              rw [hr] at h
              injection h with h
              subst h
              intro y hy
              rcases List.mem_cons.mp hy with rfl | hy2
              · exact ⟨m, List.mem_cons_self m rest, hf⟩
              · obtain ⟨x, hx, hfx⟩ := ih rest' hr y hy2
                exact ⟨x, List.mem_cons_of_mem m hx, hfx⟩

/-- Every output term of `combine_like_terms` takes its powers dict from
the cleaned form of some input term. -/
theorem combineLike_powers_from (l : List Monomial) :
    ∀ y ∈ combineLike l, ∃ x ∈ l, y.powers = (x.clean).powers := by
  induction l using combineLike.induct with
  | case1 =>
      intro y hy
      rw [combineLike] at hy
      cases hy
  | case2 m rest ih =>
      intro y hy
      rw [combineLike] at hy
      rcases List.mem_cons.mp hy with rfl | hy2
      · exact ⟨m, List.mem_cons_self m rest, rfl⟩
      · obtain ⟨x, hx, hxy⟩ := ih y hy2
        exact ⟨x, List.mem_cons_of_mem m (List.mem_of_mem_filter hx), hxy⟩

/-- A polynomial all of whose terms have empty powers dicts has no
variables. -/
theorem nVariables_eq_zero (p : Polynomial)
    (h : ∀ m ∈ p.elements, m.powers = []) : p.nVariables = 0 := by
  unfold Polynomial.nVariables
  have : p.elements.flatMap (fun m => m.powers.map (·.1)) = [] := by
    rw [List.flatMap_eq_nil_iff]
    intro m hm
    rw [h m hm]
    rfl
  rw [this]
  rfl

/-- In a list whose deduplication has at most one element, all members are
equal. -/
theorem all_eq_of_dedup_length_le_one {l : List String}
    (h : l.dedup.length ≤ 1) : ∀ a ∈ l, ∀ b ∈ l, a = b := by
  intro a ha b hb
  have ha' : a ∈ l.dedup := List.mem_dedup.mpr ha
  have hb' : b ∈ l.dedup := List.mem_dedup.mpr hb
  cases hd : l.dedup with
  | nil => rw [hd] at ha'; cases ha'
  | cons c rest =>
      rw [hd] at ha' hb' h
      simp only [List.length_cons] at h
      have hr : rest = [] := List.length_eq_zero.mp (by omega)
      subst hr
      rcases List.mem_singleton.mp ha' with rfl
      rcases List.mem_singleton.mp hb' with rfl
      rfl

/-- C10 counterexample: the claim states the positional call raises exactly
when the Expression has more than one distinct variable.  The constant
Expression `[2]` has zero distinct variables, yet calling it with `5`
raises: `self.elements[0].variable_list[0]` is an IndexError because the
leading term has no variables. -/
theorem c10_counterexample_constant_call_raises :
    Polynomial.call ⟨[⟨2, []⟩]⟩ 5 = .error .indexError ∧
    (⟨[⟨2, []⟩]⟩ : Polynomial).nVariables = 0 ∧ ¬ (1 : ℕ) < 0 := by
  exact ⟨rfl, rfl, by norm_num⟩

/-- C10 (amended): for an Expression whose terms have distinct keys in
their powers dicts, the positional call raises `ValueError` when there is
more than one distinct variable; with at most one distinct variable it
raises `IndexError` when the term sequence is empty or the leading term's
powers dict is empty; otherwise — with `v` the leading term's first key —
it raises exactly when the value is 0 and some term has a negative exponent
for `v`, and on success it returns a cleaned constant Expression (zero
distinct variables; a `Polynomial` value, never a plain number). -/
theorem c10_call_characterization (p : Polynomial) (value : ℚ)
    (hnd : ∀ m ∈ p.elements, (m.powers.map (·.1)).Nodup) :
    (1 < p.nVariables → Polynomial.call p value = .error .valueError) ∧
    (p.elements = [] → Polynomial.call p value = .error .indexError) ∧
    (∀ e0 rest, p.elements = e0 :: rest → ¬ 1 < p.nVariables →
      (e0.powers.map (·.1) = [] → Polynomial.call p value = .error .indexError) ∧
      (∀ v vrest, e0.powers.map (·.1) = v :: vrest →
        ((∃ er, Polynomial.call p value = .error er) ↔
          value = 0 ∧ ∃ m ∈ p.elements, dictLookupD m.powers v < 0) ∧
        (∀ q, Polynomial.call p value = .ok q → q.nVariables = 0))) := by
  refine ⟨?_, ?_, ?_⟩
  · intro h1
    unfold Polynomial.call
    rw [if_pos h1]
  · intro hnil
    unfold Polynomial.call
    have h0 : p.nVariables = 0 := by
      unfold Polynomial.nVariables
      rw [hnil]
      rfl
    rw [if_neg (by rw [h0]; norm_num), hnil]
  · intro e0 rest hel h1
    constructor
    · intro hkeys
      unfold Polynomial.call
      rw [if_neg h1, hel]
      simp only [hkeys]
    · intro v vrest hkeys
      have hcall : Polynomial.call p value =
          match mapExcept (fun m => m.call value v) p.elements with
          | .error e => .error e
          | .ok els => .ok (Polynomial.clean ⟨els⟩) := by
        unfold Polynomial.call
        rw [if_neg h1, hel]
        simp only [hkeys]
      have hallv : ∀ m ∈ p.elements, ∀ w ∈ m.powers.map (·.1), w = v := by
        intro m hm w hw
        have hwin : w ∈ p.elements.flatMap (fun m => m.powers.map (·.1)) :=
          List.mem_flatMap.mpr ⟨m, hm, hw⟩
        have hvin : v ∈ p.elements.flatMap (fun m => m.powers.map (·.1)) := by
          refine List.mem_flatMap.mpr ⟨e0, ?_, ?_⟩
          · rw [hel]; exact List.mem_cons_self e0 rest
          · rw [hkeys]; exact List.mem_cons_self v vrest
        have hle : (p.elements.flatMap (fun m => m.powers.map (·.1))).dedup.length ≤ 1 := by
          have := Nat.not_lt.mp h1
          exact this
        exact all_eq_of_dedup_length_le_one hle w hwin v hvin
      constructor
      · rw [hcall]
        cases hme : mapExcept (fun m => m.call value v) p.elements with
        | error e =>
            have hex : ∃ e', mapExcept (fun m => m.call value v) p.elements = .error e' :=
              ⟨e, hme⟩
            rw [mapExcept_error_iff] at hex
            obtain ⟨m, hm, e', he'⟩ := hex
            have := (monomial_call_error_iff m value v (hnd m hm)).mp ⟨e', he'⟩
            refine iff_of_true ⟨e, rfl⟩ ⟨this.1, m, hm, this.2⟩
        | ok els =>
            refine iff_of_false ?_ ?_
            · rintro ⟨er, her⟩
              cases her
            · rintro ⟨hv0, m, hm, hneg⟩
              have : ∃ e', mapExcept (fun m => m.call value v) p.elements = .error e' := by
                rw [mapExcept_error_iff]
                exact ⟨m, hm, (monomial_call_error_iff m value v (hnd m hm)).mpr ⟨hv0, hneg⟩⟩
              obtain ⟨e', he'⟩ := this
              rw [hme] at he'
              cases he'
      · intro q hq
        rw [hcall] at hq
        cases hme : mapExcept (fun m => m.call value v) p.elements with
        | error e => rw [hme] at hq; cases hq
        | ok els =>
            rw [hme] at hq
            injection hq with hq
            subst hq
            apply nVariables_eq_zero
            intro y hy
            unfold Polynomial.clean at hy
            simp only at hy
            obtain ⟨x, hx, hxy⟩ := combineLike_powers_from _ y hy
            have hxels : x ∈ els := by
              have := List.mem_mergeSort.mp hx
              exact this
            obtain ⟨m, hm, hcallm⟩ := mapExcept_ok_mem _ _ _ hme x hxels
            have hxp : x.powers = dictErase m.powers v :=
              monomial_call_ok_powers m value v (hnd m hm) x hcallm
            have herased : dictErase m.powers v = [] := by
              rw [List.eq_nil_iff_forall_not_mem]
              intro pr hpr
              have hpr' : pr ∈ m.powers := List.mem_of_mem_filter hpr
              have hkey : pr.1 = v := by
                apply hallv m hm
                exact List.mem_map.mpr ⟨pr, hpr', rfl⟩
              have := List.of_mem_filter hpr
              simp only [bne_iff_ne, ne_eq, decide_eq_true_eq] at this
              exact this hkey
            rw [hxy]
            show dictEraseZeros x.powers = []
            rw [hxp, herased]
            rfl

/-- Witness for C10 (amended): the Expression `2x⁻¹` called with value 0
raises (zero to a negative power), obtained from the characterization. -/
theorem c10_call_characterization_witness :
    ∃ er, Polynomial.call ⟨[⟨2, [("x", -1)]⟩]⟩ 0 = .error er := by
  have hnd : ∀ m ∈ (⟨[⟨2, [("x", -1)]⟩]⟩ : Polynomial).elements,
      (m.powers.map (·.1)).Nodup := by
    intro m hm
    rcases List.mem_singleton.mp hm with rfl
    decide
  have h := c10_call_characterization ⟨[⟨2, [("x", -1)]⟩]⟩ 0 hnd
  have h3 := (h.2.2 ⟨2, [("x", -1)]⟩ [] rfl (by decide)).2 "x" [] rfl
  refine h3.1.mpr ⟨rfl, ⟨2, [("x", -1)]⟩, List.mem_singleton.mpr rfl, by decide⟩

/-- `Monomial.solve` (src/structures.py:104-109), over exact complex
arithmetic in place of Python floats: for `a·varⁿ = value` the code computes
`omega_n = e ** (2j*pi/power)` and yields `(value/a) ** (1/power) * omega_n ** k`
for `k` in `range(power)`.  Python's `**` on a negative or complex base with
a non-integer exponent is the principal branch, `Complex.cpow` here; a
variable absent from the powers dict raises `KeyError`, and exponent 0
raises `ZeroDivisionError` at `2j*pi/power` before the loop. -/
noncomputable def Monomial.solve (m : Monomial) (var : String) (value : ℚ) :
    Except PyErr (List ℂ) :=
  match dictLookup m.powers var with
  | none => .error .keyError
  | some power =>
      if power = 0 then .error .zeroDivision
      else
        .ok ((List.range power.toNat).map
          (fun k => ((value : ℂ) / (m.coeffient : ℂ)) ^ ((1 : ℂ) / (power : ℂ)) *
            Complex.exp (2 * Real.pi * Complex.I / (power : ℂ)) ^ k))

/-- C7 counterexample: the claim states the returned values are pairwise
distinct for every value `c`.  For `1·x² = 0` both returned roots are `0`
(`(0/1) ** (1/2) = 0` annihilates the roots of unity), so the claim's
distinctness fails at `c = 0`. -/
theorem c7_counterexample_zero_value_equal_roots :
    Monomial.solve ⟨1, [("x", 2)]⟩ "x" 0 = .ok [0, 0] ∧
    ¬ (([0, 0] : List ℂ).Pairwise (· ≠ ·)) := by
  constructor
  · unfold Monomial.solve
    have hlk : dictLookup [("x", 2)] "x" = some 2 := by decide
    rw [hlk]
    dsimp only
    rw [if_neg (by norm_num : ¬ (2:ℤ) = 0)]
    have h2 : ((2:ℤ) : ℂ) = (2 : ℂ) := by norm_num
    have hz : ((0:ℚ) : ℂ) / ((1:ℚ) : ℂ) = 0 := by norm_num
    have hcpow : ((0:ℂ)) ^ ((1:ℂ) / (2:ℂ)) = (0:ℂ) := Complex.zero_cpow (by norm_num)
    simp only [h2, hz, hcpow]
    norm_num [List.range_succ]
    rfl
  · simp

/-- C7 (amended): for a Term `a·varⁿ` with `a ≠ 0` and `n ≥ 1`, solving
`a·varⁿ = c` returns exactly n complex numbers, the k-th being
`(c/a)^(1/n)·e^(2πik/n)`; each returned root r satisfies `a·rⁿ = c` exactly
(exact equality in this model stands in for the claim's floating
tolerance); and when additionally `c ≠ 0` the n values are pairwise
distinct.  For `c = 0` all returned values are `0`, so the claim's
unconditional distinctness is amended with the hypothesis `c ≠ 0`. -/
theorem c7_solve_amended (m : Monomial) (var : String) (value : ℚ) (n : ℤ)
    (ha : m.coeffient ≠ 0) (hn : dictLookup m.powers var = some n) (hn1 : 1 ≤ n) :
    ∃ roots : List ℂ,
      Monomial.solve m var value = .ok roots ∧
      roots.length = n.toNat ∧
      roots = (List.range n.toNat).map
        (fun (k : ℕ) => ((value : ℂ) / (m.coeffient : ℂ)) ^ ((1:ℂ) / (n:ℂ)) *
          Complex.exp (2 * Real.pi * Complex.I * (k:ℂ) / (n:ℂ))) ∧
      (∀ r ∈ roots, (m.coeffient : ℂ) * r ^ n.toNat = (value : ℂ)) ∧
      (value ≠ 0 → roots.Pairwise (· ≠ ·)) := by
  have hn0 : n ≠ 0 := by omega
  have hnC : ((n : ℤ) : ℂ) ≠ 0 := by
    simp only [ne_eq, Int.cast_eq_zero]
    exact hn0
  have htn : ((n.toNat : ℕ) : ℂ) = ((n : ℤ) : ℂ) := by
    rw [← Int.toNat_of_nonneg (by omega : (0:ℤ) ≤ n)]
    push_cast
    rfl
  have htn0 : n.toNat ≠ 0 := by omega
  set R : ℂ := ((value : ℂ) / (m.coeffient : ℂ)) ^ ((1:ℂ) / (n:ℂ)) with hR
  set ω : ℂ := Complex.exp (2 * Real.pi * Complex.I / (n:ℂ)) with hω
  refine ⟨(List.range n.toNat).map (fun k => R * ω ^ k), ?_, ?_, ?_, ?_, ?_⟩
  · unfold Monomial.solve
    rw [hn]
    dsimp only
    rw [if_neg hn0]
  · simp
  · apply List.map_congr_left
    intro k hk
    congr 1
    rw [hω, ← Complex.exp_nat_mul]
    congr 1
    ring
  · intro r hr
    obtain ⟨k, hk, rfl⟩ := List.mem_map.mp hr
    have hRn : R ^ n.toNat = (value : ℂ) / (m.coeffient : ℂ) := by
      rw [hR, one_div, ← htn]
      exact Complex.cpow_nat_inv_pow _ htn0
    have hωn : ω ^ n.toNat = 1 := by
      rw [hω, ← Complex.exp_nat_mul, htn]
      have : ((n:ℤ):ℂ) * (2 * Real.pi * Complex.I / ((n:ℤ):ℂ)) =
          2 * Real.pi * Complex.I := by
        field_simp
      rw [this, Complex.exp_two_pi_mul_I]
    calc (m.coeffient : ℂ) * (R * ω ^ k) ^ n.toNat
        = (m.coeffient : ℂ) * (R ^ n.toNat * (ω ^ n.toNat) ^ k) := by ring
      _ = (m.coeffient : ℂ) * ((value : ℂ) / (m.coeffient : ℂ)) := by
          rw [hRn, hωn]; ring
      _ = (value : ℂ) := by
          rw [mul_comm, div_mul_cancel₀ _ (show (m.coeffient : ℂ) ≠ 0 by exact_mod_cast ha)]
  · intro hv
    have haC : (m.coeffient : ℂ) ≠ 0 := by exact_mod_cast ha
    have hR0 : R ≠ 0 := by
      rw [hR]
      intro h0
      rcases (Complex.cpow_eq_zero_iff _ _).mp h0 with ⟨hbase, -⟩
      rcases div_eq_zero_iff.mp hbase with hv0 | hc0
      · exact hv (by exact_mod_cast hv0)
      · exact haC hc0
    have hinj : ∀ j ∈ List.range n.toNat, ∀ k ∈ List.range n.toNat,
        R * ω ^ j = R * ω ^ k → j = k := by
      intro j hj k hk heq
      have hωjk : ω ^ j = ω ^ k := mul_left_cancel₀ hR0 heq
      rw [hω, ← Complex.exp_nat_mul, ← Complex.exp_nat_mul,
        Complex.exp_eq_exp_iff_exists_int] at hωjk
      obtain ⟨t, ht⟩ := hωjk
      have hj' : (j : ℤ) < n := by
        have := List.mem_range.mp hj
        omega
      have hk' : (k : ℤ) < n := by
        have := List.mem_range.mp hk
        omega
      have hℤ : (j : ℤ) = k + t * n := by
        have hpi : (2 * (Real.pi : ℂ) * Complex.I) ≠ 0 := by
          simp [Complex.I_ne_zero, Real.pi_ne_zero, Complex.ofReal_ne_zero]
        have hfrac : (n:ℂ) * (2 * Real.pi * Complex.I / (n:ℂ)) =
            2 * Real.pi * Complex.I := by
          field_simp
        have key : ((j:ℂ) - k - t * n) * (2 * Real.pi * Complex.I / (n:ℂ)) = 0 := by
          calc ((j:ℂ) - k - t * n) * (2 * Real.pi * Complex.I / (n:ℂ))
              = (j:ℂ) * (2 * Real.pi * Complex.I / (n:ℂ)) -
                (k:ℂ) * (2 * Real.pi * Complex.I / (n:ℂ)) -
                (t:ℂ) * ((n:ℂ) * (2 * Real.pi * Complex.I / (n:ℂ))) := by ring
            _ = 0 := by rw [hfrac, ht]; ring
        have hne : (2 * (Real.pi : ℂ) * Complex.I / (n:ℂ)) ≠ 0 :=
          div_ne_zero hpi hnC
        have hzero : ((j:ℂ) - k - t * n) = 0 := by
          rcases mul_eq_zero.mp key with h | h
          · exact h
          · exact absurd h hne
        have hC2 : (j : ℂ) = (k : ℂ) + (t : ℂ) * (n : ℂ) := by
          linear_combination hzero
        exact_mod_cast hC2
      have hjnn : (0:ℤ) ≤ (j:ℤ) := Int.ofNat_nonneg j
      have hknn : (0:ℤ) ≤ (k:ℤ) := Int.ofNat_nonneg k
      have ht0 : t = 0 := by
        by_contra hne0
        rcases lt_or_gt_of_ne hne0 with hlt | hgt
        · have h1 : t ≤ -1 := by omega
          have h2 : t * n ≤ -n := by nlinarith
          linarith
        · have h1 : 1 ≤ t := by omega
          have h2 : n ≤ t * n := by nlinarith
          linarith
      subst ht0
      simp only [Int.zero_mul, zero_mul, add_zero] at hℤ
      omega
    have := List.Nodup.map_on hinj (List.nodup_range n.toNat)
    exact this

/-- Witness for C7 (amended) at the Term `1·x¹` with value 1. -/
theorem c7_solve_amended_witness :
    (⟨1, [("x", 1)]⟩ : Monomial).coeffient ≠ 0 ∧
    (∃ roots : List ℂ,
      Monomial.solve ⟨1, [("x", 1)]⟩ "x" 1 = .ok roots ∧
      roots.length = (1:ℤ).toNat ∧
      roots = (List.range (1:ℤ).toNat).map
        (fun (k : ℕ) => (((1:ℚ) : ℂ) / ((⟨1, [("x", 1)]⟩ : Monomial).coeffient : ℂ)) ^
            ((1:ℂ) / ((1:ℤ):ℂ)) *
          Complex.exp (2 * Real.pi * Complex.I * (k:ℂ) / ((1:ℤ):ℂ))) ∧
      (∀ r ∈ roots,
        ((⟨1, [("x", 1)]⟩ : Monomial).coeffient : ℂ) * r ^ (1:ℤ).toNat = ((1:ℚ) : ℂ)) ∧
      ((1:ℚ) ≠ 0 → roots.Pairwise (· ≠ ·))) :=
  ⟨by norm_num, c7_solve_amended ⟨1, [("x", 1)]⟩ "x" 1 1 (by norm_num) (by decide) (by norm_num)⟩

/-- Python `math.gcd(*coefficients)` as called by `Polynomial.gc_mono`
(src/structures.py:267): it accepts only integers (a non-integer
coefficient raises `TypeError`; the `ℚ` model uses denominator 1 for
"integer"), returns the nonnegative gcd, and returns `0` for an empty
argument list. -/
def mathGcd (l : List ℚ) : Except PyErr ℤ :=
  if l.all (fun q => q.den == 1) then
    .ok (l.foldl (fun g q => (Int.gcd g q.num : ℤ)) 0)
  else .error .typeError

/-- `Polynomial.gc_mono` (src/structures.py:263-271): clean every element
in place (the cleaned list is returned, since `shell` keeps operating on
the mutated elements), take the gcd of the coefficients and the last
element's exponent of `var`, and return the cleaned factor monomial.
An empty element list raises `IndexError` at `self.elements[-1]` (after
`math.gcd()` returned 0); a last element without `var` raises `KeyError`. -/
def gcMono (elements : List Monomial) (var : String) :
    Except PyErr (List Monomial × Monomial) :=
  match mathGcd ((elements.map Monomial.clean).map (·.coeffient)) with
  | .error e => .error e
  | .ok g =>
      match (elements.map Monomial.clean).getLast? with
      | none => .error .indexError
      | some last =>
          match dictLookup last.powers var with
          | none => .error .keyError
          | some gcv =>
              .ok (elements.map Monomial.clean, Monomial.clean ⟨(g : ℚ), [(var, gcv)]⟩)

/-- Result of `Polynomial.shell` under fuel: the list of
`(factor, reduced elements, stripped constant)` tuples, an exception, or
fuel exhaustion (which theorem `c9_shell_terminates` rules out for
sufficient fuel). -/
inductive ShellResult where
  | ok (shelled : List (Monomial × List Monomial × ℚ))
  | error (e : PyErr)
  | outOfFuel
deriving DecidableEq

/-- The `while` loop of `Polynomial.shell` (src/structures.py:241-256),
one fuel unit per pass: while more than one term remains, strip a trailing
constant (rebuilding through the sorting constructor), extract the common
monomial factor (`gc_mono`, which also cleans the elements in place), stop
when the factor is the multiplicative identity, else divide every element
by the factor (`current /= factor`, `Polynomial.__div__` with the
single-term divisor `P([factor])`) and record
`(factor, current, constant)`. -/
def shellLoop (v : String) : ℕ → List Monomial →
    List (Monomial × List Monomial × ℚ) → ShellResult
  | 0, _, _ => .outOfFuel
  | fuel + 1, cur, acc =>
      if cur.length = 1 then .ok acc
      else
        match cur.getLast? with
        | none => .error .indexError
        | some last =>
            let constant : ℚ := if last.isConstant then last.coeffient else 0
            let cur1 : List Monomial :=
              if last.isConstant then sortElems cur.dropLast else cur
            match gcMono cur1 v with
            | .error e => .error e
            | .ok (cleaned, factor) =>
                if factor.coeffient = 1 ∧ factor.powers = [] then .ok acc
                else
                  match mapExcept (fun m => m.div factor) cleaned with
                  | .error e => .error e
                  | .ok newElems =>
                      shellLoop v fuel newElems (acc ++ [(factor, newElems, constant)])

/-- `Polynomial.shell` (src/structures.py:230-256): rejects an empty or
multi-variable polynomial, picks the substitution variable as the first
key of the leading term's powers dict (`IndexError` when that dict is
empty), and runs the loop on a deep copy of the elements. -/
def Polynomial.shell (p : Polynomial) (fuel : ℕ) : ShellResult :=
  if p.elements = [] then .error .valueError
  else if 1 < p.nVariables then .error .valueError
  else
    match p.elements with
    | [] => .error .valueError
    | e0 :: _ =>
        match e0.powers.map (·.1) with
        | [] => .error .indexError
        | v :: _ => shellLoop v fuel p.elements []

/-- A successful lookup returns the value of an entry of the dict. -/
theorem dictLookup_mem (d : VarDict) (k : String) (x : ℤ)
    (h : dictLookup d k = some x) : (k, x) ∈ d := by
  induction d with
  | nil => cases h
  | cons p rest ih =>
      obtain ⟨k', y⟩ := p
      rw [dictLookup] at h
      by_cases hk : k' = k
      · rw [if_pos hk] at h
        injection h with h
        subst hk
        subst h
        exact List.mem_cons_self _ _
      · rw [if_neg hk] at h
        exact List.mem_cons_of_mem _ (ih h)

/-- `mapExcept` preserves length on success. -/
theorem mapExcept_ok_length (f : Monomial → Except PyErr Monomial)
    (l l' : List Monomial) (h : mapExcept f l = .ok l') : l'.length = l.length := by
  induction l generalizing l' with
  | nil =>
      injection h with h
      subst h
      rfl
  | cons m rest ih =>
      rw [mapExcept] at h
      cases hf : f m with
      | error e => rw [hf] at h; cases h
      | ok m' =>
          rw [hf] at h
          simp only [Bind.bind, Except.bind] at h
          cases hr : mapExcept f rest with
          | error e => rw [hr] at h; cases h
          | ok rest' =>
              rw [hr] at h
              injection h with h
              subst h
              simp [ih rest' hr]

/-- The last element of a successful `mapExcept` result is the image of the
last input element. -/
theorem mapExcept_ok_getLast (f : Monomial → Except PyErr Monomial)
    (l l' : List Monomial) (m : Monomial) (h : mapExcept f l = .ok l')
    (hm : l.getLast? = some m) :
    ∃ q, l'.getLast? = some q ∧ f m = .ok q := by
  induction l generalizing l' with
  | nil => cases hm
  | cons m0 rest ih =>
      rw [mapExcept] at h
      cases hf : f m0 with
      | error e => rw [hf] at h; cases h
      | ok q0 =>
          rw [hf] at h
          simp only [Bind.bind, Except.bind] at h
          cases hr : mapExcept f rest with
          | error e => rw [hr] at h; cases h
          | ok rest' =>
              rw [hr] at h
              injection h with h
              subst h
              cases rest with
              | nil =>
                  injection hr with hr
                  subst hr
                  rw [List.getLast?_singleton] at hm
                  injection hm with hm
                  subst hm
                  exact ⟨q0, rfl, hf⟩
              | cons m1 rest1 =>
                  rw [List.getLast?_cons_cons] at hm
                  have hr1 : rest' ≠ [] := by
                    intro hnil
                    subst hnil
                    have := mapExcept_ok_length f (m1 :: rest1) [] hr
                    simp at this
                  obtain ⟨q, hq, hfq⟩ := ih rest' hr hm
                  refine ⟨q, ?_, hfq⟩
                  cases rest' with
                  | nil => exact absurd rfl hr1
                  | cons q1 rest1' => rw [List.getLast?_cons_cons]; exact hq

/-- A dict whose entries all carry exponent 0 cleans to the empty dict. -/
theorem dictEraseZeros_eq_nil (d : VarDict) (h : ∀ pr ∈ d, pr.2 = (0:ℤ)) :
    dictEraseZeros d = [] := by
  apply List.filter_eq_nil_iff.mpr
  intro pr hpr
  simp [h pr hpr]

/-- Inversion for a successful `Monomial.__div__`: the quotient's powers
dict is the comprehension over the union of key sequences with subtracted
exponents. -/
theorem div_ok_powers (m factor q : Monomial) (h : m.div factor = .ok q) :
    q.powers = (dedupKeys (m.powers.map (·.1) ++ factor.powers.map (·.1))).map
      (fun n => (n, dictLookupD m.powers n - dictLookupD factor.powers n)) := by
  unfold Monomial.div at h
  by_cases h0 : factor.coeffient = 0
  · rw [if_pos h0] at h
    cases h
  · rw [if_neg h0] at h
    by_cases hden : (m.coeffient / factor.coeffient).den = 1
    · rw [if_pos hden] at h
      injection h with h
      subst h
      rfl
    · rw [if_neg hden] at h
      cases h

/-- Inversion for a successful `gc_mono`. -/
theorem gcMono_ok (elements : List Monomial) (var : String)
    (cleaned : List Monomial) (factor : Monomial)
    (h : gcMono elements var = .ok (cleaned, factor)) :
    cleaned = elements.map Monomial.clean ∧
    ∃ (g : ℤ) (gcv : ℤ) (last : Monomial),
      cleaned.getLast? = some last ∧
      dictLookup last.powers var = some gcv ∧
      factor = Monomial.clean ⟨(g : ℚ), [(var, gcv)]⟩ := by
  unfold gcMono at h
  cases hg : mathGcd ((elements.map Monomial.clean).map (·.coeffient)) with
  | error e => rw [hg] at h; cases h
  | ok g =>
      rw [hg] at h
      dsimp only at h
      cases hl : (elements.map Monomial.clean).getLast? with
      | none => rw [hl] at h; cases h
      | some last =>
          rw [hl] at h
          dsimp only at h
          cases hlk : dictLookup last.powers var with
          | none => rw [hlk] at h; cases h
          | some gcv =>
              rw [hlk] at h
              dsimp only at h
              injection h with h
              have h1 : cleaned = elements.map Monomial.clean := congrArg Prod.fst h.symm
              have h2 : factor = Monomial.clean ⟨(g : ℚ), [(var, gcv)]⟩ :=
                congrArg Prod.snd h.symm
              subst h1
              exact ⟨rfl, g, gcv, last, hl, hlk, h2⟩

/-- The termination measure for the shell loop: twice the number of terms,
plus one when the trailing term is not (yet) a constant. -/
def shellMeasure (cur : List Monomial) : ℕ :=
  2 * cur.length + (match cur.getLast? with
    | none => 1
    | some m => if m.isConstant then 0 else 1)

theorem shellMeasure_le (cur : List Monomial) :
    shellMeasure cur ≤ 2 * cur.length + 1 := by
  unfold shellMeasure
  cases cur.getLast? with
  | none => dsimp only; omega
  | some m => dsimp only; split <;> omega

/-- Fuel above the measure never runs out: every pass of the shell loop
either returns, raises, or strictly decreases the measure. -/
theorem shellLoop_term (v : String) :
    ∀ (fuel : ℕ) (cur : List Monomial) (acc : List (Monomial × List Monomial × ℚ)),
    (∀ m ∈ cur, ∀ pr ∈ m.powers, pr.1 = v) →
    shellMeasure cur < fuel →
    shellLoop v fuel cur acc ≠ .outOfFuel := by
  intro fuel
  induction fuel with
  | zero =>
      intro cur acc hinv hμ
      exact absurd hμ (Nat.not_lt_zero _)
  | succ fuel ih =>
      intro cur acc hinv hμ
      rw [shellLoop]
      by_cases hlen : cur.length = 1
      · rw [if_pos hlen]
        intro h
        cases h
      · rw [if_neg hlen]
        cases hlast : cur.getLast? with
        | none =>
            intro h
            cases h
        | some last =>
            have hcur_ne : cur ≠ [] := by
              rintro rfl
              cases hlast
            have hlen1 : 1 ≤ cur.length := by
              cases cur
              · exact absurd rfl hcur_ne
              · simp
            dsimp only
            cases hgc : gcMono (if last.isConstant then sortElems cur.dropLast else cur) v with
            | error e =>
                intro h
                cases h
            | ok pr =>
                obtain ⟨cleaned, factor⟩ := pr
                dsimp only
                by_cases hbreak : factor.coeffient = 1 ∧ factor.powers = []
                · rw [if_pos hbreak]
                  intro h
                  cases h
                · rw [if_neg hbreak]
                  cases hdiv : mapExcept (fun m => m.div factor) cleaned with
                  | error e =>
                      intro h
                      cases h
                  | ok newElems =>
                      obtain ⟨hcl, g, gcv, last', hlast', hlk', hfac⟩ :=
                        gcMono_ok _ v cleaned factor hgc
                      have hcur1_sub : ∀ m ∈ (if last.isConstant then
                          sortElems cur.dropLast else cur), m ∈ cur := by
                        intro m hm
                        by_cases hc : last.isConstant
                        · rw [if_pos hc] at hm
                          unfold sortElems at hm
                          exact List.mem_of_mem_dropLast (List.mem_mergeSort.mp hm)
                        · rw [if_neg hc] at hm
                          exact hm
                      have hfac_keys : ∀ pr ∈ factor.powers, pr.1 = v := by
                        intro pr hpr
                        rw [hfac] at hpr
                        have := List.mem_of_mem_filter hpr
                        rcases List.mem_singleton.mp this with rfl
                        rfl
                      have hclean_keys : ∀ m ∈ cleaned, ∀ pr ∈ m.powers, pr.1 = v := by
                        intro m hm pr hpr
                        rw [hcl] at hm
                        obtain ⟨m0, hm0, rfl⟩ := List.mem_map.mp hm
                        exact hinv m0 (hcur1_sub m0 hm0) pr (List.mem_of_mem_filter hpr)
                      have hinv' : ∀ m ∈ newElems, ∀ pr ∈ m.powers, pr.1 = v := by
                        intro m hm pr hpr
                        obtain ⟨m0, hm0, hdm⟩ := mapExcept_ok_mem _ _ _ hdiv m hm
                        rw [div_ok_powers m0 factor m hdm] at hpr
                        obtain ⟨n, hn, rfl⟩ := List.mem_map.mp hpr
                        have hn' := (mem_dedupKeys _ n).mp hn
                        rcases List.mem_append.mp hn' with hn1 | hn2
                        · obtain ⟨pr0, hpr0, hpr0e⟩ := List.mem_map.mp hn1
                          rw [← hpr0e]
                          exact hclean_keys m0 hm0 pr0 hpr0
                        · obtain ⟨pr0, hpr0, hpr0e⟩ := List.mem_map.mp hn2
                          rw [← hpr0e]
                          exact hfac_keys pr0 hpr0
                      have hlen_new : newElems.length = cleaned.length :=
                        mapExcept_ok_length _ _ _ hdiv
                      by_cases hc : last.isConstant
                      · have hμcur : shellMeasure cur = 2 * cur.length := by
                          unfold shellMeasure
                          rw [hlast]
                          simp [hc]
                        have hlen_cl : cleaned.length = cur.length - 1 := by
                          rw [hcl]
                          simp only [if_pos hc, List.length_map]
                          unfold sortElems
                          rw [List.length_mergeSort, List.length_dropLast]
                        have hμnew : shellMeasure newElems ≤ 2 * cur.length - 1 := by
                          have := shellMeasure_le newElems
                          omega
                        apply ih newElems _ hinv'
                        omega
                      · have hμcur : shellMeasure cur = 2 * cur.length + 1 := by
                          unfold shellMeasure
                          rw [hlast]
                          simp [hc]
                        have hlen_cl : cleaned.length = cur.length := by
                          rw [hcl]
                          simp only [if_neg hc, List.length_map]
                        obtain ⟨q, hq, hdq⟩ :=
                          mapExcept_ok_getLast _ cleaned newElems last' hdiv hlast'
                        have hgcv_ne : gcv ≠ 0 := by
                          have hmem := dictLookup_mem _ _ _ hlk'
                          have hlast'mem : last' ∈ cleaned :=
                            List.mem_of_getLast?_eq_some hlast'
                          rw [hcl] at hlast'mem
                          obtain ⟨l0, hl0, hl0e⟩ := List.mem_map.mp hlast'mem
                          rw [← hl0e] at hmem
                          have := List.of_mem_filter hmem
                          simpa using this
                        have hfacp : factor.powers = [(v, gcv)] := by
                          rw [hfac]
                          show dictEraseZeros [(v, gcv)] = [(v, gcv)]
                          simp [dictEraseZeros, hgcv_ne]
                        have hqconst : q.isConstant = true := by
                          unfold Monomial.isConstant
                          rw [div_ok_powers last' factor q hdq]
                          have hz : dictEraseZeros
                              ((dedupKeys (last'.powers.map (·.1) ++
                                factor.powers.map (·.1))).map
                                (fun n => (n, dictLookupD last'.powers n -
                                  dictLookupD factor.powers n))) = [] := by
                            apply dictEraseZeros_eq_nil
                            intro pr hpr
                            obtain ⟨n, hn, rfl⟩ := List.mem_map.mp hpr
                            have hn' := (mem_dedupKeys _ n).mp hn
                            have hnv : n = v := by
                              rcases List.mem_append.mp hn' with hn1 | hn2
                              · obtain ⟨pr0, hpr0, hpr0e⟩ := List.mem_map.mp hn1
                                rw [← hpr0e]
                                exact hclean_keys last'
                                  (List.mem_of_getLast?_eq_some hlast') pr0 hpr0
                              · obtain ⟨pr0, hpr0, hpr0e⟩ := List.mem_map.mp hn2
                                rw [← hpr0e]
                                exact hfac_keys pr0 hpr0
                            subst hnv
                            show dictLookupD last'.powers n - dictLookupD factor.powers n = 0
                            rw [dictLookupD, hlk', hfacp]
                            show (gcv : ℤ) - dictLookupD [(n, gcv)] n = 0
                            simp [dictLookupD, dictLookup]
                          rw [hz]
                          rfl
                        have hμnew : shellMeasure newElems = 2 * cur.length := by
                          unfold shellMeasure
                          rw [hq]
                          simp [hqconst, hlen_new, hlen_cl]
                        apply ih newElems _ hinv'
                        omega

/-- C9: for every single-variable Expression with at least one Term,
shelling terminates within `2·(number of terms) + 2` passes: with that much
fuel the loop never exhausts it (each pass returns the shelled list, stops
at the identity factor or a single remaining term, raises, or strictly
decreases a measure bounded by the fuel). -/
theorem c9_shell_terminates (p : Polynomial)
    (hne : p.elements ≠ []) (h1 : p.nVariables = 1) :
    Polynomial.shell p (2 * p.elements.length + 2) ≠ .outOfFuel := by
  unfold Polynomial.shell
  rw [if_neg hne, if_neg (by omega)]
  obtain ⟨e0, rest, hel⟩ : ∃ e0 rest, p.elements = e0 :: rest := by
    cases hx : p.elements with
    | nil => exact absurd hx hne
    | cons a b => exact ⟨a, b, rfl⟩
  rw [hel]
  dsimp only
  generalize hkeys : e0.powers.map (·.1) = ks
  cases ks with
  | nil =>
      intro h
      cases h
  | cons v vs =>
      have hallv : ∀ m ∈ p.elements, ∀ pr ∈ m.powers, pr.1 = v := by
        intro m hm pr hpr
        have hprk : pr.1 ∈ p.elements.flatMap (fun m => m.powers.map (·.1)) :=
          List.mem_flatMap.mpr ⟨m, hm, List.mem_map.mpr ⟨pr, hpr, rfl⟩⟩
        have hvk : v ∈ p.elements.flatMap (fun m => m.powers.map (·.1)) := by
          refine List.mem_flatMap.mpr ⟨e0, ?_, ?_⟩
          · rw [hel]; exact List.mem_cons_self e0 rest
          · rw [hkeys]; exact List.mem_cons_self v vs
        have hle : (p.elements.flatMap (fun m => m.powers.map (·.1))).dedup.length ≤ 1 := by
          have : p.nVariables ≤ 1 := by omega
          exact this
        exact all_eq_of_dedup_length_le_one hle pr.1 hprk v hvk
      rw [← hel]
      apply shellLoop_term v _ p.elements [] hallv
      have := shellMeasure_le p.elements
      omega

/-- Witness for C9 at the Expression `2x² + 4x`. -/
theorem c9_shell_terminates_witness :
    ((⟨[⟨2, [("x", 2)]⟩, ⟨4, [("x", 1)]⟩]⟩ : Polynomial).elements ≠ []) ∧
    ((⟨[⟨2, [("x", 2)]⟩, ⟨4, [("x", 1)]⟩]⟩ : Polynomial).nVariables = 1) ∧
    Polynomial.shell ⟨[⟨2, [("x", 2)]⟩, ⟨4, [("x", 1)]⟩]⟩
      (2 * (⟨[⟨2, [("x", 2)]⟩, ⟨4, [("x", 1)]⟩]⟩ : Polynomial).elements.length + 2) ≠
      .outOfFuel :=
  ⟨by simp, by decide,
    c9_shell_terminates ⟨[⟨2, [("x", 2)]⟩, ⟨4, [("x", 1)]⟩]⟩ (by simp) (by decide)⟩

end PolyAlg
